import Mathlib

/-!
Verification of the rsa-acc RSA accumulator library.

The JavaScript sources (src/index.js and src/generate_primes.js) are
shallowly embedded below.  JS BigInt values become Nat (or Int where a
value can be negative, such as a witness nonce or the Bezout
coefficients), and fallible operations (JS throws) return Except.  The
synchronous isProbablePrime(k) of the big-integer library used by
src/generate_primes.js is idealised as exact primality, implemented by
the trial-division Boolean test isPrime and related to Nat.Prime by a
lemma.  The isProbablyPrime of bigint-crypto-utils called by nextPrime
in src/index.js, by contrast, returns a Promise and is called there
without await, so the conditional tests a Promise object, which is
truthy; that condition is embedded as the constant-true
isProbablyPrimeUnawaited.  The digest H is modelled as an arbitrary
function from elements to naturals, standing for the big-endian integer
value of the digest buffer produced by the hash primitive.
-/

namespace RsaAcc

/-- Modelled from the spec: the sources require a file constants.js that is
not present under src; section 6 of the spec fixes PRIME_BITS = 128 (the
bit-length of element primes). -/
def PRIME_BITS : ℕ := 128

/-- Modelled from the spec: constants.js fixes BASE = 65537, the initial
value of the accumulation z. -/
def BASE : ℕ := 65537

/-- Abstract error kinds.  SecretRequired models the failure of del and
prove on an accumulator whose secret d is absent (in JS, a TypeError from
operating on undefined); RangeError models the RangeError thrown by the
bigint-mod-arith helpers (modulus not positive, missing modular inverse,
extended gcd on a non-positive argument) and by BigInt division by zero. -/
inductive Err where
  | SecretRequired
  | RangeError
deriving DecidableEq

/-- Trial-division primality test: the idealisation of the synchronous
Miller-Rabin tests isProbablePrime(1) and isProbablePrime(10) of the
big-integer library used by src/generate_primes.js. -/
def isPrime (n : ℕ) : Bool :=
  decide (2 ≤ n) && (List.range n).all fun d => decide (d < 2) || decide (n % d ≠ 0)

/-- Loop of eGcd from bigint-mod-arith: the iterative extended Euclid with
state (a, b, x, y, u, v), embedded with explicit fuel (the JS loop runs
while a is nonzero; fuel at least a + 1 suffices since a strictly
decreases). -/
def eGcdLoop : ℕ → ℕ → ℕ → ℤ → ℤ → ℤ → ℤ → ℤ × ℤ × ℕ
  | 0, _, b, x, y, _, _ => (x, y, b)
  | fuel + 1, a, b, x, y, u, v =>
    if a = 0 then (x, y, b)
    else eGcdLoop fuel (b % a) a u v (x - u * ((b / a : ℕ) : ℤ)) (y - v * ((b / a : ℕ) : ℤ))

/-- eGcd(a, b) from bigint-mod-arith: returns (x, y, g) with a*x + b*y = g.
The JS code throws for a = 0 or b = 0; callers below guard those cases. -/
def eGcd (a b : ℕ) : ℤ × ℤ × ℕ :=
  eGcdLoop (a + 1) a b 0 1 1 0

/-- toZn(a, n) from bigint-mod-arith: the least non-negative residue. -/
def toZn (a : ℤ) (n : ℕ) : ℕ :=
  (a % (n : ℤ)).toNat

/-- modInv(a, n) from bigint-mod-arith: eGcd(toZn(a, n), n), then
toZn(x, n) of the first Bezout coefficient.  A RangeError is thrown by
toZn when the modulus is not positive, by eGcd when its first argument
toZn(a, n) is 0 (eGcd demands positive arguments; in particular
modInv(a, 1) always throws there, since toZn(a, 1) = 0), and by modInv
itself when the gcd is not 1. -/
def modInv (a : ℤ) (n : ℕ) : Except Err ℕ :=
  if n = 0 then .error .RangeError
  else if toZn a n = 0 then .error .RangeError
  else if (eGcd (toZn a n) n).2.2 = 1 then .ok (toZn (eGcd (toZn a n) n).1 n)
  else .error .RangeError

/-- modPow(b, e, n) from bigint-mod-arith: RangeError for n = 0, the value
0 for n = 1, modInv(modPow(b, -e, n), n) for negative e, and otherwise
square-and-multiply, whose value is (b mod n)^e mod n. -/
def modPow (b : ℕ) (e : ℤ) (n : ℕ) : Except Err ℕ :=
  if n = 0 then .error .RangeError
  else if n = 1 then .ok 0
  else if e < 0 then modInv (((b % n) ^ e.natAbs % n : ℕ) : ℤ) n
  else .ok ((b % n) ^ e.natAbs % n)

/-- mapToBigInt(H, x) from src/index.js: the digest of x interpreted as an
integer, masked to the low PRIME_BITS bits (a bitmask by 2^PRIME_BITS - 1,
i.e. reduction mod 2^PRIME_BITS). -/
def mapToBigInt {α : Type} (H : α → ℕ) (x : α) : ℕ :=
  H x % 2 ^ PRIME_BITS

/-- The condition tested by nextPrime in src/index.js.  The code calls
the Promise-returning isProbablyPrime(y, 24) of bigint-crypto-utils in a
synchronous function without await, so the conditional tests the Promise
object itself, which is truthy whatever the eventual primality verdict:
the condition holds for every candidate. -/
def isProbablyPrimeUnawaited (_y _iterations : ℕ) : Bool :=
  true

/-- The do-while loop of nextPrime from src/index.js: add 2 and return
the candidate when the (unawaited, hence truthy) test passes, embedded
with explicit fuel.  The truthy condition makes the loop return its
first candidate for any positive fuel. -/
def nextPrimeLoop : ℕ → ℕ → ℕ
  | c, 0 => c + 2
  | c, fuel + 1 =>
    if isProbablyPrimeUnawaited (c + 2) 24 then c + 2 else nextPrimeLoop (c + 2) fuel

/-- nextPrime(y) from src/index.js: if y is even, first test y + 1; in
either case then enter the stepping do-while loop.  Since the unawaited
test is truthy, the function returns y + 1 for even y and y + 2 for odd
y, never having effectively tested primality. -/
def nextPrime (y : ℕ) : ℕ :=
  if y % 2 = 0 then
    if isProbablyPrimeUnawaited (y + 1) 24 then y + 1 else nextPrimeLoop (y + 1) (y + 4)
  else nextPrimeLoop y (y + 4)

/-- mapToPrime(H, x) from src/index.js: the prime found from the masked
digest, reduced mod 2^PRIME_BITS, together with nonce = y - digest. -/
def mapToPrime {α : Type} (H : α → ℕ) (x : α) : ℕ × ℤ :=
  let d := mapToBigInt H x
  let y := nextPrime d % 2 ^ PRIME_BITS
  (y, (y : ℤ) - (d : ℤ))

/-- The Accumulator state of src/index.js: digest handle H, modulus n,
optional secret d = (p - 1) * (q - 1), and accumulation z. -/
structure Accumulator (α : Type) where
  H : α → ℕ
  n : ℕ
  d : Option ℕ
  z : ℕ

/-- The Witness record of src/index.js: element, nonce, and witness value. -/
structure Witness (α : Type) where
  x : α
  nonce : ℤ
  w : ℕ
deriving DecidableEq

/-- Accumulator.add from src/index.js: maps x to its prime, keeps the old
accumulation as the witness value, and raises z to the prime mod n. -/
def Accumulator.add {α : Type} (a : Accumulator α) (x : α) :
    Except Err (Accumulator α × Witness α) :=
  let p := mapToPrime a.H x
  let w := a.z
  match modPow a.z (p.1 : ℤ) a.n with
  | .error e => .error e
  | .ok z => .ok ({a with z := z}, ⟨x, p.2, w⟩)

/-- Accumulator.del from src/index.js: recomputes the prime from the
witness as digest + nonce, and replaces z by z^(y⁻¹ mod d) mod n.  The
secret d is consulted by modInv; when d is absent the JS code fails there
(modelled as SecretRequired).  No validation of the witness is performed
and its w field is not read. -/
def Accumulator.del {α : Type} (a : Accumulator α) (wit : Witness α) :
    Except Err (Accumulator α × ℕ) :=
  let y : ℤ := (mapToBigInt a.H wit.x : ℤ) + wit.nonce
  match a.d with
  | none => .error .SecretRequired
  | some d =>
    match modInv y d with
    | .error e => .error e
    | .ok i =>
      match modPow a.z (i : ℤ) a.n with
      | .error e => .error e
      | .ok z => .ok ({a with z := z}, z)

/-- Accumulator.verify from src/index.js: recomputes the prime as
digest + nonce and compares w^y mod n with the stored accumulation. -/
def Accumulator.verify {α : Type} (a : Accumulator α) (wit : Witness α) :
    Except Err Bool :=
  let y : ℤ := (mapToBigInt a.H wit.x : ℤ) + wit.nonce
  match modPow wit.w y a.n with
  | .error e => .error e
  | .ok r => .ok (decide (r = a.z))

/-- Accumulator.prove from src/index.js: maps x to its prime and returns
the witness z^(y⁻¹ mod d) mod n; requires the secret d via modInv. -/
def Accumulator.prove {α : Type} (a : Accumulator α) (x : α) :
    Except Err (Witness α) :=
  let p := mapToPrime a.H x
  match a.d with
  | none => .error .SecretRequired
  | some d =>
    match modInv (p.1 : ℤ) d with
    | .error e => .error e
    | .ok i =>
      match modPow a.z (i : ℤ) a.n with
      | .error e => .error e
      | .ok w => .ok ⟨x, p.2, w⟩

/-- The Update aggregator of src/index.js: a snapshot (H, n, z) of the
accumulator it was opened against, and the products piA, piD of absorbed
primes (both 1n initially). -/
structure Update (α : Type) where
  H : α → ℕ
  n : ℕ
  z : ℕ
  piA : ℤ
  piD : ℤ

/-- The Update constructor of src/index.js. -/
def Update.init {α : Type} (a : Accumulator α) : Update α :=
  ⟨a.H, a.n, a.z, 1, 1⟩

/-- Update.add from src/index.js: absorb an addition by multiplying piA
by the witness's prime digest + nonce. -/
def Update.add {α : Type} (u : Update α) (wit : Witness α) : Update α :=
  let y : ℤ := (mapToBigInt u.H wit.x : ℤ) + wit.nonce
  {u with piA := u.piA * y}

/-- Update.del from src/index.js: absorb a deletion into piD. -/
def Update.del {α : Type} (u : Update α) (wit : Witness α) : Update α :=
  let y : ℤ := (mapToBigInt u.H wit.x : ℤ) + wit.nonce
  {u with piD := u.piD * y}

/-- Update.undoAdd from src/index.js: piA /= y, where /= is truncating
BigInt division (Int.tdiv); the only failure is division by zero. -/
def Update.undoAdd {α : Type} (u : Update α) (wit : Witness α) :
    Except Err (Update α) :=
  let y : ℤ := (mapToBigInt u.H wit.x : ℤ) + wit.nonce
  if y = 0 then .error .RangeError
  else .ok {u with piA := u.piA.tdiv y}

/-- Update.undoDel from src/index.js: piD /= y, truncating division. -/
def Update.undoDel {α : Type} (u : Update α) (wit : Witness α) :
    Except Err (Update α) :=
  let y : ℤ := (mapToBigInt u.H wit.x : ℤ) + wit.nonce
  if y = 0 then .error .RangeError
  else .ok {u with piD := u.piD.tdiv y}

/-- Update.update from src/index.js: with (a, b) the eGcd coefficients of
(piD, y), the refreshed witness value is
(w^(a * piA) mod n) * (z^b mod n) mod n.  The eGcd of bigint-mod-arith
throws for non-positive arguments, modelled by the guard. -/
def Update.update {α : Type} (u : Update α) (wit : Witness α) :
    Except Err (Witness α) :=
  let y : ℤ := (mapToBigInt u.H wit.x : ℤ) + wit.nonce
  if u.piD ≤ 0 ∨ y ≤ 0 then .error .RangeError
  else
    let r := eGcd u.piD.toNat y.toNat
    match modPow wit.w (r.1 * u.piA) u.n with
    | .error e => .error e
    | .ok m1 =>
      match modPow u.z r.2.1 u.n with
      | .error e => .error e
      | .ok m2 => .ok ⟨wit.x, wit.nonce, m1 * m2 % u.n⟩

/-- A batch operation against the accumulator: an addition of an element,
or a deletion through a witness (of which del reads only x and nonce). -/
inductive Op (α : Type) where
  | addEl (x : α)
  | delEl (x : α) (nonce : ℤ)

/-- Run a batch of operations through Accumulator.add / Accumulator.del. -/
def applyOps {α : Type} (a : Accumulator α) : List (Op α) → Except Err (Accumulator α)
  | [] => .ok a
  | Op.addEl x :: rest =>
    match a.add x with
    | .error e => .error e
    | .ok r => applyOps r.1 rest
  | Op.delEl x nonce :: rest =>
    match a.del ⟨x, nonce, 0⟩ with
    | .error e => .error e
    | .ok r => applyOps r.1 rest

/-- Absorb the same batch into an Update via Update.add / Update.del; an
addition is absorbed through the witness Accumulator.add returned for it,
whose nonce is (mapToPrime H x).2 (Update.add does not read w). -/
def absorbOps {α : Type} (u : Update α) : List (Op α) → Update α
  | [] => u
  | Op.addEl x :: rest => absorbOps (u.add ⟨x, (mapToPrime u.H x).2, 0⟩) rest
  | Op.delEl x nonce :: rest => absorbOps (u.del ⟨x, nonce, 0⟩) rest

/-- Product of the primes of the additions in a batch. -/
def addProd {α : Type} (H : α → ℕ) : List (Op α) → ℕ
  | [] => 1
  | Op.addEl x :: rest => (mapToPrime H x).1 * addProd H rest
  | Op.delEl _ _ :: rest => addProd H rest

/-- Product of the primes of the deletions in a batch. -/
def delProd {α : Type} (H : α → ℕ) : List (Op α) → ℤ
  | [] => 1
  | Op.addEl _ :: rest => delProd H rest
  | Op.delEl x nonce :: rest => ((mapToBigInt H x : ℤ) + nonce) * delProd H rest

/-- Bit length of a natural number (bitLength of the JS bigint libraries),
embedded with fuel; fuel n suffices since the value halves each step. -/
def bitLenAux : ℕ → ℕ → ℕ
  | 0, _ => 0
  | fuel + 1, n => if n = 0 then 0 else bitLenAux fuel (n / 2) + 1

/-- Bit length of a natural number. -/
def bitLen (n : ℕ) : ℕ :=
  bitLenAux n n

/-- The wheel increments of generate_primes.js: gaps between successive
residues coprime to 30. -/
def delta : List ℕ :=
  [6, 4, 2, 4, 2, 4, 6, 2]

/-- The inner while loop of randomPrime in src/generate_primes.js: while
the bit length of p exceeds bits, break on a (1-round, idealised) prime,
else step by the wheel; embedded with fuel.  The loop only increases p, so
when it is entered (bit length over bits) its result is discarded by the
caller whatever the fuel. -/
def wheelLoop (bits : ℕ) : ℕ → ℕ → ℕ → ℕ
  | p, _, 0 => p
  | p, i, fuel + 1 =>
    if bits < bitLen p then
      if isPrime p then p
      else wheelLoop bits (p + (delta.getD (i % 8) 0)) (i + 1) fuel
    else p

/-- randomPrime(bits) from src/generate_primes.js, with the stream of
outer random samples (bn.randBetween results) supplied as a list: align
the sample by adding 31 - (p mod 30), run the wheel loop only while the
bit length exceeds bits, resample if still over length, and otherwise
return the aligned candidate if it passes the (10-round, idealised)
primality test, resampling on failure. -/
def randomPrime (bits : ℕ) : List ℕ → Option ℕ
  | [] => none
  | s :: rest =>
    let p0 := s + (31 - s % 30)
    let p1 := if bits < bitLen p0 then wheelLoop bits p0 0 p0 else p0
    if bits < bitLen p1 then randomPrime bits rest
    else if isPrime p1 then some p1
    else randomPrime bits rest

/-- The inner search described by claim C8 and the spec: test each wheel
candidate (starting from the aligned sample) with one Miller-Rabin round,
restart the outer sample when the bit length exceeds bits, and once a
candidate passes, run 24 more rounds and return it (idealised: a single
exact primality test). -/
def claimWheel (bits : ℕ) : ℕ → ℕ → ℕ → Option ℕ
  | _, _, 0 => none
  | p, i, fuel + 1 =>
    if bits < bitLen p then none
    else if isPrime p then some p
    else claimWheel bits (p + (delta.getD (i % 8) 0)) (i + 1) fuel

/-- Modelled from the words of claim C8 (spec section 4.1): sample, align
upward to the smallest value congruent to 31 mod 30, then search along the
wheel, returning the surviving candidate and resampling only on bit-length
overflow. -/
def randomPrimeClaim (bits : ℕ) : List ℕ → Option ℕ
  | [] => none
  | s :: rest =>
    let p0 := s + (31 - s % 30) % 30
    match claimWheel bits p0 0 (2 ^ bits + 31) with
    | some p => some p
    | none => randomPrimeClaim bits rest

theorem isPrime_iff (n : ℕ) : isPrime n = true ↔ n.Prime := by
  rw [Nat.prime_def_lt]
  unfold isPrime
  simp only [Bool.and_eq_true, decide_eq_true_eq, List.all_eq_true, List.mem_range,
    Bool.or_eq_true]
  constructor
  · rintro ⟨h2, hall⟩
    refine ⟨h2, fun m hm hdvd => ?_⟩
    rcases hall m hm with h | h
    · have : m = 0 ∨ m = 1 := by omega
      rcases this with rfl | rfl
      · exact absurd (Nat.zero_dvd.mp hdvd) (by omega)
      · rfl
    · exact absurd (Nat.dvd_iff_mod_eq_zero.mp hdvd) h
  · rintro ⟨h2, hmin⟩
    refine ⟨h2, fun m hm => ?_⟩
    by_cases hlt : m < 2
    · exact Or.inl hlt
    · refine Or.inr fun hmod => ?_
      have hdvd : m ∣ n := Nat.dvd_iff_mod_eq_zero.mpr hmod
      have := hmin m hm hdvd
      omega

theorem eGcdLoop_spec (A B : ℤ) :
    ∀ (fuel a b : ℕ) (x y u v : ℤ), a < fuel →
      u * A + v * B = (a : ℤ) → x * A + y * B = (b : ℤ) →
      ((eGcdLoop fuel a b x y u v).1 * A + (eGcdLoop fuel a b x y u v).2.1 * B
          = ((eGcdLoop fuel a b x y u v).2.2 : ℤ)) ∧
      (eGcdLoop fuel a b x y u v).2.2 = Nat.gcd a b := by
  intro fuel
  induction fuel with
  | zero => intro a b x y u v h; exact absurd h (Nat.not_lt_zero a)
  | succ fuel ih =>
    intro a b x y u v hfuel hu hx
    by_cases ha : a = 0
    · subst ha
      simp only [eGcdLoop, if_pos rfl]
      exact ⟨hx, (Nat.gcd_zero_left b).symm⟩
    · have hstep : eGcdLoop (fuel + 1) a b x y u v
          = eGcdLoop fuel (b % a) a u v
              (x - u * ((b / a : ℕ) : ℤ)) (y - v * ((b / a : ℕ) : ℤ)) := by
        simp only [eGcdLoop, if_neg ha]
      have hlt : b % a < fuel := by
        have := Nat.mod_lt b (show 0 < a by omega)
        omega
      have hmod : ((b % a : ℕ) : ℤ) = (b : ℤ) - (a : ℤ) * ((b / a : ℕ) : ℤ) := by
        have h2 : ((b % a : ℕ) : ℤ) + (a : ℤ) * ((b / a : ℕ) : ℤ) = (b : ℤ) := by
          exact_mod_cast congrArg (fun m : ℕ => (m : ℤ)) (Nat.mod_add_div b a)
        linarith
      have hinv : (x - u * ((b / a : ℕ) : ℤ)) * A + (y - v * ((b / a : ℕ) : ℤ)) * B
          = ((b % a : ℕ) : ℤ) := by
        rw [hmod]
        have h3 : (x - u * ((b / a : ℕ) : ℤ)) * A + (y - v * ((b / a : ℕ) : ℤ)) * B
            = (x * A + y * B) - ((b / a : ℕ) : ℤ) * (u * A + v * B) := by ring
        rw [h3, hu, hx]
        ring
      rw [hstep]
      have := ih (b % a) a u v (x - u * ((b / a : ℕ) : ℤ)) (y - v * ((b / a : ℕ) : ℤ))
        hlt hinv hu
      refine ⟨this.1, ?_⟩
      rw [this.2, ← Nat.gcd_rec a b]

theorem eGcd_spec (a b : ℕ) :
    ((eGcd a b).1 * a + (eGcd a b).2.1 * b = ((eGcd a b).2.2 : ℤ)) ∧
      (eGcd a b).2.2 = Nat.gcd a b := by
  have := eGcdLoop_spec (a : ℤ) (b : ℤ) (a + 1) a b 0 1 1 0 (by omega)
    (by ring) (by ring)
  exact ⟨this.1, this.2⟩

theorem toZn_lt (a : ℤ) {n : ℕ} (hn : 0 < n) : toZn a n < n := by
  unfold toZn
  have h1 : 0 ≤ a % (n : ℤ) := Int.emod_nonneg a (by exact_mod_cast hn.ne')
  have h2 : a % (n : ℤ) < (n : ℤ) := Int.emod_lt_of_pos a (by exact_mod_cast hn)
  omega

theorem toZn_coe (a : ℤ) {n : ℕ} (hn : 0 < n) : ((toZn a n : ℕ) : ℤ) = a % (n : ℤ) := by
  unfold toZn
  exact Int.toNat_of_nonneg (Int.emod_nonneg a (by exact_mod_cast hn.ne'))

theorem modInv_cong (a : ℤ) {n : ℕ} (hn : 0 < n)
    (hgcd : (eGcd (toZn a n) n).2.2 = 1) :
    a * (toZn (eGcd (toZn a n) n).1 n : ℕ) ≡ 1 [ZMOD (n : ℤ)] := by
  have hspec := eGcd_spec (toZn a n) n
  have hbez : (eGcd (toZn a n) n).1 * (toZn a n : ℤ)
      + (eGcd (toZn a n) n).2.1 * n = 1 := by
    have h0 := hspec.1
    rw [hgcd] at h0
    exact_mod_cast h0
  have h1 : (toZn a n : ℤ) * (eGcd (toZn a n) n).1 ≡ 1 [ZMOD (n : ℤ)] := by
    refine Int.modEq_iff_dvd.mpr ⟨(eGcd (toZn a n) n).2.1, by linarith⟩
  have h2 : a ≡ (toZn a n : ℤ) [ZMOD (n : ℤ)] := by
    rw [toZn_coe a hn]
    exact (Int.emod_emod_of_dvd a dvd_rfl).symm
  have h3 : ((toZn (eGcd (toZn a n) n).1 n : ℕ) : ℤ)
      ≡ (eGcd (toZn a n) n).1 [ZMOD (n : ℤ)] := by
    rw [toZn_coe _ hn]
    exact Int.emod_emod_of_dvd _ dvd_rfl
  exact (h2.mul h3).trans h1

theorem modInv_ok (a : ℤ) {n : ℕ} (hn : 1 < n)
    (hg : Nat.Coprime (toZn a n) n) :
    ∃ r, modInv a n = .ok r ∧ r < n ∧ a * r ≡ 1 [ZMOD (n : ℤ)] := by
  have hnz : toZn a n ≠ 0 := by
    intro h0
    rw [h0] at hg
    unfold Nat.Coprime at hg
    rw [Nat.gcd_zero_left] at hg
    omega
  have hspec := eGcd_spec (toZn a n) n
  have hgcd : (eGcd (toZn a n) n).2.2 = 1 := by rw [hspec.2]; exact hg
  refine ⟨toZn (eGcd (toZn a n) n).1 n, ?_, toZn_lt _ (by omega), modInv_cong a (by omega) hgcd⟩
  unfold modInv
  rw [if_neg (by omega : ¬ n = 0), if_neg hnz, if_pos hgcd]

theorem modInv_ok_extract {a : ℤ} {n r : ℕ} (h : modInv a n = .ok r) :
    0 < n ∧ a * r ≡ 1 [ZMOD (n : ℤ)] := by
  unfold modInv at h
  by_cases h0 : n = 0
  · rw [if_pos h0] at h
    exact Except.noConfusion h
  · rw [if_neg h0] at h
    by_cases hz : toZn a n = 0
    · rw [if_pos hz] at h
      exact Except.noConfusion h
    · rw [if_neg hz] at h
      by_cases hg : (eGcd (toZn a n) n).2.2 = 1
      · rw [if_pos hg, Except.ok.injEq] at h
        rw [← h]
        exact ⟨by omega, modInv_cong a (by omega) hg⟩
      · rw [if_neg hg] at h
        exact Except.noConfusion h

theorem natModEq_of_intModEq {D a b : ℕ}
    (h : (a : ℤ) ≡ (b : ℤ) [ZMOD (D : ℤ)]) : a ≡ b [MOD D] := by
  have h2 : ((a % D : ℕ) : ℤ) = ((b % D : ℕ) : ℤ) := by
    rw [Int.natCast_mod, Int.natCast_mod]
    exact h
  exact_mod_cast h2

theorem modPow_nonneg_eq (b : ℕ) (e : ℤ) {n : ℕ} (hn : n ≠ 0) (he : 0 ≤ e) :
    modPow b e n = .ok (b ^ e.toNat % n) := by
  unfold modPow
  rw [if_neg hn]
  by_cases h1 : n = 1
  · subst h1
    simp [Nat.mod_one]
  · rw [if_neg h1, if_neg (by omega : ¬ e < 0)]
    have habs : e.natAbs = e.toNat := by omega
    rw [habs]
    exact congrArg Except.ok (Nat.pow_mod b e.toNat n).symm

theorem modInv_lt {a : ℤ} {n r : ℕ} (h : modInv a n = .ok r) : r < n := by
  unfold modInv at h
  by_cases h0 : n = 0
  · rw [if_pos h0] at h
    exact Except.noConfusion h
  · rw [if_neg h0] at h
    by_cases hz : toZn a n = 0
    · rw [if_pos hz] at h
      exact Except.noConfusion h
    · rw [if_neg hz] at h
      by_cases h1 : (eGcd (toZn a n) n).2.2 = 1
      · rw [if_pos h1, Except.ok.injEq] at h
        rw [← h]
        exact toZn_lt _ (by omega)
      · rw [if_neg h1] at h
        exact Except.noConfusion h

theorem modPow_lt {b : ℕ} {e : ℤ} {n r : ℕ} (h : modPow b e n = .ok r) : r < n := by
  unfold modPow at h
  by_cases h0 : n = 0
  · rw [if_pos h0] at h
    exact Except.noConfusion h
  · rw [if_neg h0] at h
    by_cases h1 : n = 1
    · rw [if_pos h1, Except.ok.injEq] at h
      omega
    · rw [if_neg h1] at h
      by_cases h2 : e < 0
      · rw [if_pos h2] at h
        exact modInv_lt h
      · rw [if_neg h2, Except.ok.injEq] at h
        rw [← h]
        exact Nat.mod_lt _ (by omega)

theorem pow_eq_pow_of_modEq {M : Type} [Monoid M] (u : M) {t a b : ℕ}
    (hu : u ^ t = 1) (h : a ≡ b [MOD t]) : u ^ a = u ^ b := by
  have key : ∀ c : ℕ, u ^ c = u ^ (c % t) := by
    intro c
    conv_lhs => rw [← Nat.mod_add_div c t]
    rw [pow_add, pow_mul, hu, one_pow, mul_one]
  rw [key a, key b]
  exact congrArg (fun m => u ^ m) h

theorem coprime_mod {b n : ℕ} (h : Nat.Coprime b n) : Nat.Coprime (b % n) n := by
  unfold Nat.Coprime
  rw [← Nat.gcd_rec n b, Nat.gcd_comm]
  exact h

theorem euler_pq {p q : ℕ} (hp : p.Prime) (hq : q.Prime) (hpq : p ≠ q) (z : ℕ)
    (hz : Nat.Coprime z (p * q)) :
    (z : ZMod (p * q)) ^ ((p - 1) * (q - 1)) = 1 := by
  have hco : Nat.Coprime p q := (Nat.coprime_primes hp hq).mpr hpq
  have htot : (p * q).totient = (p - 1) * (q - 1) := by
    rw [Nat.totient_mul hco, Nat.totient_prime hp, Nat.totient_prime hq]
  have h1 := ZMod.pow_totient (ZMod.unitOfCoprime z hz)
  have h2 := congrArg Units.val h1
  rw [Units.val_pow_eq_pow_val, Units.val_one, ZMod.coe_unitOfCoprime, htot] at h2
  exact h2

theorem one_lt_totient_pq {p q : ℕ} (hp : p.Prime) (hq : q.Prime) (hpq : p ≠ q) :
    1 < (p - 1) * (q - 1) := by
  have h1 := hp.two_le
  have h2 := hq.two_le
  rcases Nat.lt_or_ge 2 p with h3 | h3
  · have := Nat.mul_le_mul (show 2 ≤ p - 1 by omega) (show 1 ≤ q - 1 by omega)
    omega
  · have := Nat.mul_le_mul (show 1 ≤ p - 1 by omega) (show 2 ≤ q - 1 by omega)
    omega

theorem modPow_coe {n : ℕ} (hn : 1 < n) (b : ℕ) (hb : Nat.Coprime b n) (e : ℤ) :
    ∃ r, modPow b e n = .ok r ∧ r < n ∧
      (r : ZMod n) = ((ZMod.unitOfCoprime b hb ^ e : (ZMod n)ˣ) : ZMod n) := by
  by_cases he : 0 ≤ e
  · refine ⟨b ^ e.toNat % n, modPow_nonneg_eq b e (by omega) he,
      Nat.mod_lt _ (by omega), ?_⟩
    have h1 : ((b ^ e.toNat % n : ℕ) : ZMod n) = (b : ZMod n) ^ e.toNat := by
      rw [ZMod.natCast_mod, Nat.cast_pow]
    rw [h1, ← ZMod.coe_unitOfCoprime b hb, ← Units.val_pow_eq_pow_val]
    have h2 : (ZMod.unitOfCoprime b hb : (ZMod n)ˣ) ^ e.toNat
        = ZMod.unitOfCoprime b hb ^ e := by
      rw [← zpow_natCast, Int.toNat_of_nonneg he]
    rw [h2]
  · have hepos : e < 0 := by omega
    have h1 : Nat.Coprime (b % n) n := coprime_mod hb
    have h2 : Nat.Coprime ((b % n) ^ e.natAbs) n := h1.pow_left e.natAbs
    have hmco : Nat.Coprime ((b % n) ^ e.natAbs % n) n := coprime_mod h2
    have hmlt : (b % n) ^ e.natAbs % n < n := Nat.mod_lt _ (by omega)
    have htoZn : toZn (((b % n) ^ e.natAbs % n : ℕ) : ℤ) n = (b % n) ^ e.natAbs % n := by
      unfold toZn
      rw [← Int.natCast_mod, Int.toNat_natCast, Nat.mod_eq_of_lt hmlt]
    obtain ⟨r, hok, hrlt, hcong⟩ := modInv_ok (((b % n) ^ e.natAbs % n : ℕ) : ℤ) hn
      (by rw [htoZn]; exact hmco)
    have hpow : modPow b e n = modInv (((b % n) ^ e.natAbs % n : ℕ) : ℤ) n := by
      unfold modPow
      rw [if_neg (by omega : ¬ n = 0), if_neg (by omega : ¬ n = 1), if_pos hepos]
    refine ⟨r, by rw [hpow, hok], hrlt, ?_⟩
    have hcast : (b : ZMod n) ^ e.natAbs * (r : ZMod n) = 1 := by
      have h3 := (ZMod.intCast_eq_intCast_iff _ _ n).mpr hcong
      push_cast at h3
      exact h3
    have hmU : ((b : ZMod n)) ^ e.natAbs
        = ((ZMod.unitOfCoprime b hb ^ e.natAbs : (ZMod n)ˣ) : ZMod n) := by
      rw [← ZMod.coe_unitOfCoprime b hb, ← Units.val_pow_eq_pow_val]
    rw [hmU] at hcast
    have hr : (r : ZMod n)
        = (((ZMod.unitOfCoprime b hb ^ e.natAbs)⁻¹ : (ZMod n)ˣ) : ZMod n) := by
      calc (r : ZMod n) = 1 * (r : ZMod n) := (one_mul _).symm
        _ = (((ZMod.unitOfCoprime b hb ^ e.natAbs)⁻¹ * (ZMod.unitOfCoprime b hb ^ e.natAbs)
              : (ZMod n)ˣ) : ZMod n) * (r : ZMod n) := by
            rw [inv_mul_cancel, Units.val_one]
        _ = (((ZMod.unitOfCoprime b hb ^ e.natAbs)⁻¹ : (ZMod n)ˣ) : ZMod n)
              * (((ZMod.unitOfCoprime b hb ^ e.natAbs : (ZMod n)ˣ) : ZMod n) * (r : ZMod n)) := by
            rw [Units.val_mul, mul_assoc]
        _ = (((ZMod.unitOfCoprime b hb ^ e.natAbs)⁻¹ : (ZMod n)ˣ) : ZMod n) := by
            rw [hcast, mul_one]
    have he2 : e = -(e.natAbs : ℤ) := by omega
    have h4 : ZMod.unitOfCoprime b hb ^ e
        = (ZMod.unitOfCoprime b hb ^ e.natAbs)⁻¹ := by
      conv_lhs => rw [he2]
      rw [zpow_neg, zpow_natCast]
    rw [hr, h4]

theorem modPow_coprime {n : ℕ} (hn : 1 < n) {b : ℕ} (hb : Nat.Coprime b n) (e : ℤ)
    {r : ℕ} (h : modPow b e n = .ok r) : Nat.Coprime r n := by
  obtain ⟨r', hok, _, hcast⟩ := modPow_coe hn b hb e
  rw [h, Except.ok.injEq] at hok
  subst hok
  haveI : NeZero n := ⟨by omega⟩
  refine (ZMod.isUnit_iff_coprime r n).mp ?_
  rw [hcast]
  exact (ZMod.unitOfCoprime b hb ^ e).isUnit

theorem nextPrimeLoop_first (c fuel : ℕ) : nextPrimeLoop c (fuel + 1) = c + 2 :=
  rfl

/-- The net effect of the unawaited primality test in src/index.js: for
every input, nextPrime returns its first candidate - y + 1 when y is
even, y + 2 when y is odd - with the Miller-Rabin verdict discarded, so
the result is not in general prime (evidence for claims C6 and C7:
nextPrime 13 = 15 = 3 * 5). -/
theorem nextPrime_eq (y : ℕ) :
    nextPrime y = if y % 2 = 0 then y + 1 else y + 2 := by
  by_cases h : y % 2 = 0
  · rw [if_pos h]
    unfold nextPrime
    rw [if_pos h]
    rfl
  · rw [if_neg h]
    unfold nextPrime
    rw [if_neg h]
    exact nextPrimeLoop_first y (y + 3)

/-- At digest 13 the element map returns y = 15 = 3 * 5 and nonce = 2:
the first candidate is stored untested and the returned value is
composite, contrary to the prime-search rule of claim C6 and to the
well-formedness property of claim C7 (digest + nonce = 15 is not
prime). -/
theorem mapToPrime_composite :
    mapToPrime (fun _ : ℕ => 13) 0 = (15, 2) ∧ ¬ (15 : ℕ).Prime :=
  ⟨rfl, by decide⟩

/-- At digest 2^128 - 1 the untested candidate 2^128 + 1 wraps: the
element map reduces it mod 2^PRIME_BITS to y = 1 and returns the
negative nonce 2 - 2^128, further refuting the unconditional
non-negativity asserted by claim C7. -/
theorem mapToPrime_wrap_neg :
    (mapToPrime (fun _ : ℕ => 2 ^ 128 - 1) 0).1 = 1 ∧
      (mapToPrime (fun _ : ℕ => 2 ^ 128 - 1) 0).2 < 0 :=
  ⟨rfl, by decide⟩

theorem mapToPrime_eq {α : Type} (H : α → ℕ) (x : α) :
    mapToPrime H x = (nextPrime (mapToBigInt H x) % 2 ^ PRIME_BITS,
      ((nextPrime (mapToBigInt H x) % 2 ^ PRIME_BITS : ℕ) : ℤ) - (mapToBigInt H x : ℤ)) :=
  rfl

theorem mapToPrime_add_nonce {α : Type} (H : α → ℕ) (x : α) :
    (mapToBigInt H x : ℤ) + (mapToPrime H x).2 = ((mapToPrime H x).1 : ℤ) := by
  rw [mapToPrime_eq]
  ring

theorem add_eq {α : Type} (a : Accumulator α) (x : α) (hn : a.n ≠ 0) :
    a.add x = .ok ({a with z := a.z ^ (mapToPrime a.H x).1 % a.n},
      ⟨x, (mapToPrime a.H x).2, a.z⟩) := by
  have h := modPow_nonneg_eq a.z ((mapToPrime a.H x).1 : ℤ) hn (Int.natCast_nonneg _)
  rw [Int.toNat_natCast] at h
  have hdef : a.add x = match modPow a.z ((mapToPrime a.H x).1 : ℤ) a.n with
    | .error e => .error e
    | .ok z => .ok ({a with z := z}, ⟨x, (mapToPrime a.H x).2, a.z⟩) := rfl
  rw [hdef, h]

theorem verify_eq {α : Type} (a : Accumulator α) (wit : Witness α) (hn : a.n ≠ 0)
    (he : 0 ≤ (mapToBigInt a.H wit.x : ℤ) + wit.nonce) :
    a.verify wit = .ok (decide
      (wit.w ^ ((mapToBigInt a.H wit.x : ℤ) + wit.nonce).toNat % a.n = a.z)) := by
  have h := modPow_nonneg_eq wit.w ((mapToBigInt a.H wit.x : ℤ) + wit.nonce) hn he
  have hdef : a.verify wit
      = match modPow wit.w ((mapToBigInt a.H wit.x : ℤ) + wit.nonce) a.n with
        | .error e => .error e
        | .ok r => .ok (decide (r = a.z)) := rfl
  rw [hdef, h]

theorem del_some_eq {α : Type} (H : α → ℕ) (n d0 z : ℕ) (wit : Witness α) :
    Accumulator.del ⟨H, n, some d0, z⟩ wit
      = match modInv ((mapToBigInt H wit.x : ℤ) + wit.nonce) d0 with
        | .error e => .error e
        | .ok i =>
          match modPow z (i : ℤ) n with
          | .error e => .error e
          | .ok z1 => .ok (⟨H, n, some d0, z1⟩, z1) := rfl

theorem del_ok_extract {α : Type} (H : α → ℕ) (n d0 z : ℕ) (wit : Witness α)
    {r : Accumulator α × ℕ} (h : Accumulator.del ⟨H, n, some d0, z⟩ wit = .ok r) :
    ∃ i z1, modInv ((mapToBigInt H wit.x : ℤ) + wit.nonce) d0 = .ok i ∧
      modPow z (i : ℤ) n = .ok z1 ∧ r = (⟨H, n, some d0, z1⟩, z1) := by
  rw [del_some_eq] at h
  split at h
  next e heq => exact Except.noConfusion h
  next i heq =>
    split at h
    next e2 heq2 => exact Except.noConfusion h
    next z1 heq2 =>
      rw [Except.ok.injEq] at h
      exact ⟨i, z1, heq, heq2, h.symm⟩

theorem applyOps_cons_add {α : Type} (a : Accumulator α) (x : α) (rest : List (Op α))
    {r : Accumulator α × Witness α} (h : a.add x = .ok r) :
    applyOps a (Op.addEl x :: rest) = applyOps r.1 rest := by
  have hdef : applyOps a (Op.addEl x :: rest) = match a.add x with
    | .error e => .error e
    | .ok r => applyOps r.1 rest := rfl
  rw [hdef, h]

theorem applyOps_cons_del {α : Type} (a : Accumulator α) (x : α) (nonce : ℤ)
    (rest : List (Op α)) {r : Accumulator α × ℕ} (h : a.del ⟨x, nonce, 0⟩ = .ok r) :
    applyOps a (Op.delEl x nonce :: rest) = applyOps r.1 rest := by
  have hdef : applyOps a (Op.delEl x nonce :: rest) = match a.del ⟨x, nonce, 0⟩ with
    | .error e => .error e
    | .ok r => applyOps r.1 rest := rfl
  rw [hdef, h]

theorem applyOps_cons_ok {α : Type} (a a2 : Accumulator α) (op : Op α) (rest : List (Op α))
    (h : applyOps a (op :: rest) = .ok a2) :
    (∃ x r, op = Op.addEl x ∧ a.add x = .ok r ∧ applyOps r.1 rest = .ok a2) ∨
    (∃ x nonce r, op = Op.delEl x nonce ∧ a.del ⟨x, nonce, 0⟩ = .ok r ∧
      applyOps r.1 rest = .ok a2) := by
  cases op with
  | addEl x =>
    left
    have hdef : applyOps a (Op.addEl x :: rest) = match a.add x with
      | .error e => .error e
      | .ok r => applyOps r.1 rest := rfl
    rw [hdef] at h
    cases ha : a.add x with
    | error e =>
      rw [ha] at h
      exact Except.noConfusion h
    | ok r =>
      rw [ha] at h
      exact ⟨x, r, rfl, ha, h⟩
  | delEl x nonce =>
    right
    have hdef : applyOps a (Op.delEl x nonce :: rest) = match a.del ⟨x, nonce, 0⟩ with
      | .error e => .error e
      | .ok r => applyOps r.1 rest := rfl
    rw [hdef] at h
    cases ha : a.del ⟨x, nonce, 0⟩ with
    | error e =>
      rw [ha] at h
      exact Except.noConfusion h
    | ok r =>
      rw [ha] at h
      exact ⟨x, nonce, r, rfl, ha, h⟩

theorem absorbOps_fields {α : Type} (ops : List (Op α)) : ∀ (u : Update α),
    (absorbOps u ops).H = u.H ∧ (absorbOps u ops).n = u.n ∧ (absorbOps u ops).z = u.z ∧
    (absorbOps u ops).piA = u.piA * (addProd u.H ops : ℤ) ∧
    (absorbOps u ops).piD = u.piD * delProd u.H ops := by
  induction ops with
  | nil =>
    intro u
    simp [absorbOps, addProd, delProd]
  | cons op rest ih =>
    intro u
    cases op with
    | addEl x =>
      have hstep : absorbOps u (Op.addEl x :: rest)
          = absorbOps (u.add ⟨x, (mapToPrime u.H x).2, 0⟩) rest := rfl
      have hu : (u.add ⟨x, (mapToPrime u.H x).2, 0⟩)
          = ⟨u.H, u.n, u.z, u.piA * ((mapToPrime u.H x).1 : ℤ), u.piD⟩ := by
        unfold Update.add
        rw [mapToPrime_add_nonce u.H x]
      have h := ih (u.add ⟨x, (mapToPrime u.H x).2, 0⟩)
      rw [hstep]
      have hA : addProd u.H (Op.addEl x :: rest) = (mapToPrime u.H x).1 * addProd u.H rest :=
        rfl
      have hD : delProd u.H (Op.addEl x :: rest) = delProd u.H rest := rfl
      refine ⟨by rw [h.1, hu], by rw [h.2.1, hu], by rw [h.2.2.1, hu], ?_, ?_⟩
      · rw [h.2.2.2.1, hu, hA]
        push_cast
        ring
      · rw [h.2.2.2.2, hu, hD]
    | delEl x nonce =>
      have hstep : absorbOps u (Op.delEl x nonce :: rest)
          = absorbOps (u.del ⟨x, nonce, 0⟩) rest := rfl
      have hu : (u.del ⟨x, nonce, 0⟩)
          = ⟨u.H, u.n, u.z, u.piA, u.piD * ((mapToBigInt u.H x : ℤ) + nonce)⟩ := rfl
      have h := ih (u.del ⟨x, nonce, 0⟩)
      rw [hstep]
      have hA : addProd u.H (Op.delEl x nonce :: rest) = addProd u.H rest := rfl
      have hD : delProd u.H (Op.delEl x nonce :: rest)
          = ((mapToBigInt u.H x : ℤ) + nonce) * delProd u.H rest := rfl
      refine ⟨by rw [h.1, hu], by rw [h.2.1, hu], by rw [h.2.2.1, hu], ?_, ?_⟩
      · rw [h.2.2.2.1, hu, hA]
      · rw [h.2.2.2.2, hu, hD]
        ring

theorem applyOps_spec {α : Type} {p q : ℕ} (hp : p.Prime) (hq : q.Prime) (hpq : p ≠ q) :
    ∀ (ops : List (Op α)) (aH : α → ℕ) (az : ℕ) (a' : Accumulator α),
      Nat.Coprime az (p * q) → az < p * q →
      (∀ x nonce, Op.delEl x nonce ∈ ops → 0 < (mapToBigInt aH x : ℤ) + nonce) →
      applyOps ⟨aH, p * q, some ((p - 1) * (q - 1)), az⟩ ops = .ok a' →
      a'.H = aH ∧ a'.n = p * q ∧ a'.d = some ((p - 1) * (q - 1)) ∧
        Nat.Coprime a'.z (p * q) ∧ a'.z < p * q ∧
        (a'.z : ZMod (p * q)) ^ (delProd aH ops).natAbs
          = (az : ZMod (p * q)) ^ addProd aH ops := by
  have hn1 : 1 < p * q := by
    calc 1 < 2 * 2 := by omega
      _ ≤ p * q := Nat.mul_le_mul hp.two_le hq.two_le
  intro ops
  induction ops with
  | nil =>
    intro aH az a' h3 hlt _ h5
    have h0 : applyOps (⟨aH, p * q, some ((p - 1) * (q - 1)), az⟩ : Accumulator α) []
        = .ok ⟨aH, p * q, some ((p - 1) * (q - 1)), az⟩ := rfl
    rw [h0, Except.ok.injEq] at h5
    rw [← h5]
    refine ⟨rfl, rfl, rfl, h3, hlt, ?_⟩
    have hD : delProd aH ([] : List (Op α)) = 1 := rfl
    have hA : addProd aH ([] : List (Op α)) = 1 := rfl
    rw [hD, hA]
    rfl
  | cons op rest ih =>
    intro aH az a' h3 hlt h4 h5
    rcases applyOps_cons_ok _ a' op rest h5 with
      ⟨x, r, hop, hadd, hrest⟩ | ⟨x, nonce, r, hop, hdel, hrest⟩
    · -- an addition at the head of the batch
      subst hop
      have hne : (⟨aH, p * q, some ((p - 1) * (q - 1)), az⟩ : Accumulator α).n ≠ 0 := by
        show p * q ≠ 0
        omega
      have haddeq := add_eq (⟨aH, p * q, some ((p - 1) * (q - 1)), az⟩ : Accumulator α) x hne
      rw [haddeq, Except.ok.injEq] at hadd
      rw [← hadd] at hrest
      have hstep : applyOps
          (⟨aH, p * q, some ((p - 1) * (q - 1)),
            az ^ (mapToPrime aH x).1 % (p * q)⟩ : Accumulator α) rest = .ok a' := hrest
      have h3' : Nat.Coprime (az ^ (mapToPrime aH x).1 % (p * q)) (p * q) :=
        coprime_mod (h3.pow_left _)
      have h4' : ∀ x' nonce', Op.delEl x' nonce' ∈ rest →
          0 < (mapToBigInt aH x' : ℤ) + nonce' :=
        fun x' nonce' hm => h4 x' nonce' (List.mem_cons_of_mem _ hm)
      have hres := ih aH (az ^ (mapToPrime aH x).1 % (p * q)) a' h3'
        (Nat.mod_lt _ (by omega)) h4' hstep
      refine ⟨hres.1, hres.2.1, hres.2.2.1, hres.2.2.2.1, hres.2.2.2.2.1, ?_⟩
      have hDe : delProd aH (Op.addEl x :: rest) = delProd aH rest := rfl
      have hAe : addProd aH (Op.addEl x :: rest)
          = (mapToPrime aH x).1 * addProd aH rest := rfl
      have hcast : ((az ^ (mapToPrime aH x).1 % (p * q) : ℕ) : ZMod (p * q))
          = (az : ZMod (p * q)) ^ (mapToPrime aH x).1 := by
        rw [ZMod.natCast_mod, Nat.cast_pow]
      rw [hDe, hAe, pow_mul, ← hcast]
      exact hres.2.2.2.2.2
    · -- a deletion at the head of the batch
      subst hop
      obtain ⟨i, z1, hmi, hmp, hreq⟩ :=
        del_ok_extract aH (p * q) ((p - 1) * (q - 1)) az ⟨x, nonce, 0⟩ hdel
      rw [hreq] at hrest
      have hstep : applyOps
          (⟨aH, p * q, some ((p - 1) * (q - 1)), z1⟩ : Accumulator α) rest = .ok a' := hrest
      -- the value of z1
      have hmp2 := modPow_nonneg_eq az (i : ℤ) (show p * q ≠ 0 by omega) (Int.natCast_nonneg i)
      rw [Int.toNat_natCast] at hmp2
      rw [hmp2, Except.ok.injEq] at hmp
      -- the recomputed prime for the deletion
      have hy0 : 0 < (mapToBigInt aH x : ℤ) + nonce := h4 x nonce (List.mem_cons_self _ _)
      -- the inverse congruence mod d
      have hcong := (modInv_ok_extract hmi).2
      have hd0 : 0 < (p - 1) * (q - 1) := (modInv_ok_extract hmi).1
      have hyn : (((mapToBigInt aH x : ℤ) + nonce).toNat : ℤ)
          = (mapToBigInt aH x : ℤ) + nonce := Int.toNat_of_nonneg (by omega)
      have hmodeq : (i * ((mapToBigInt aH x : ℤ) + nonce).toNat) ≡ 1 [MOD (p - 1) * (q - 1)] := by
        refine natModEq_of_intModEq ?_
        have hc : ((i * ((mapToBigInt aH x : ℤ) + nonce).toNat : ℕ) : ℤ)
            = ((mapToBigInt aH x : ℤ) + nonce) * (i : ℤ) := by
          push_cast
          rw [hyn]
          ring
        rw [hc]
        exact_mod_cast hcong
      have h3' : Nat.Coprime z1 (p * q) := by
        rw [← hmp]
        exact coprime_mod (h3.pow_left _)
      have h4' : ∀ x' nonce', Op.delEl x' nonce' ∈ rest →
          0 < (mapToBigInt aH x' : ℤ) + nonce' :=
        fun x' nonce' hm => h4 x' nonce' (List.mem_cons_of_mem _ hm)
      have hz1lt : z1 < p * q := by
        rw [← hmp]
        exact Nat.mod_lt _ (by omega)
      have hres := ih aH z1 a' h3' hz1lt h4' hstep
      refine ⟨hres.1, hres.2.1, hres.2.2.1, hres.2.2.2.1, hres.2.2.2.2.1, ?_⟩
      -- the root property: z1 ^ y = az in ZMod (p * q)
      have heuler : (az : ZMod (p * q)) ^ ((p - 1) * (q - 1)) = 1 :=
        euler_pq hp hq hpq az h3
      have hroot : ((z1 : ℕ) : ZMod (p * q)) ^ ((mapToBigInt aH x : ℤ) + nonce).toNat
          = (az : ZMod (p * q)) := by
        have hz1 : ((z1 : ℕ) : ZMod (p * q)) = (az : ZMod (p * q)) ^ i := by
          rw [← hmp, ZMod.natCast_mod, Nat.cast_pow]
        rw [hz1, ← pow_mul]
        have hpp := pow_eq_pow_of_modEq (az : ZMod (p * q)) heuler
          (a := i * ((mapToBigInt aH x : ℤ) + nonce).toNat) (b := 1) hmodeq
        rw [hpp, pow_one]
      -- assemble the exponent identity
      have hDe : delProd aH (Op.delEl x nonce :: rest)
          = ((mapToBigInt aH x : ℤ) + nonce) * delProd aH rest := rfl
      have hAe : addProd aH (Op.delEl x nonce :: rest) = addProd aH rest := rfl
      rw [hDe, hAe, Int.natAbs_mul]
      have habs : ((mapToBigInt aH x : ℤ) + nonce).natAbs
          = ((mapToBigInt aH x : ℤ) + nonce).toNat := by omega
      rw [habs,
        Nat.mul_comm (((mapToBigInt aH x : ℤ) + nonce).toNat) ((delProd aH rest).natAbs),
        pow_mul, hres.2.2.2.2.2, pow_right_comm, hroot]

theorem refresh_group {G : Type} [CommGroup G] (Uw Uz1 Uz2 : G) (y A D : ℕ) (aa bb : ℤ)
    (h1 : Uw ^ y = Uz1) (h2 : Uz2 ^ D = Uz1 ^ A) (h3 : aa * (D : ℤ) + bb * (y : ℤ) = 1) :
    (Uw ^ (aa * (A : ℤ)) * Uz2 ^ bb) ^ y = Uz2 := by
  have h1z : Uw ^ ((y : ℕ) : ℤ) = Uz1 := by rw [zpow_natCast, h1]
  have h2z : Uz2 ^ ((D : ℕ) : ℤ) = Uz1 ^ ((A : ℕ) : ℤ) := by
    rw [zpow_natCast, zpow_natCast, h2]
  have hy : (Uw ^ (aa * (A : ℤ)) * Uz2 ^ bb) ^ y
      = Uw ^ (aa * (A : ℤ) * y) * Uz2 ^ (bb * y) := by
    rw [← zpow_natCast (Uw ^ (aa * (A : ℤ)) * Uz2 ^ bb) y, mul_zpow, ← zpow_mul, ← zpow_mul]
  rw [hy]
  have hbb : bb * (y : ℤ) = 1 - aa * D := by linarith
  rw [hbb, zpow_sub, zpow_one]
  have e1 : Uw ^ (aa * (A : ℤ) * y) = (Uz1 ^ ((A : ℕ) : ℤ)) ^ aa := by
    rw [show aa * (A : ℤ) * y = ((y : ℕ) : ℤ) * ((A : ℤ) * aa) by ring, zpow_mul, h1z,
      zpow_mul]
  have e2 : Uz2 ^ (aa * (D : ℤ)) = (Uz1 ^ ((A : ℕ) : ℤ)) ^ aa := by
    rw [show aa * (D : ℤ) = ((D : ℕ) : ℤ) * aa by ring, zpow_mul, h2z]
  rw [e1, e2]
  rw [mul_comm Uz2 (((Uz1 ^ ((A : ℕ) : ℤ)) ^ aa)⁻¹), ← mul_assoc, mul_inv_cancel, one_mul]

theorem delProd_pos_coprime {α : Type} (H : α → ℕ) (y : ℕ) (hy : y.Prime) :
    ∀ ops : List (Op α),
      (∀ x nonce, Op.delEl x nonce ∈ ops →
        0 < (mapToBigInt H x : ℤ) + nonce ∧
        (((mapToBigInt H x : ℤ) + nonce).toNat).Prime ∧
        ((mapToBigInt H x : ℤ) + nonce).toNat ≠ y) →
      0 < delProd H ops ∧ Nat.Coprime (delProd H ops).natAbs y := by
  intro ops
  induction ops with
  | nil =>
    intro _
    have h : delProd H ([] : List (Op α)) = 1 := rfl
    rw [h]
    exact ⟨by norm_num, Nat.coprime_one_left y⟩
  | cons op rest ih =>
    intro hh
    cases op with
    | addEl x =>
      have hD : delProd H (Op.addEl x :: rest) = delProd H rest := rfl
      rw [hD]
      exact ih fun x' n' hm => hh x' n' (List.mem_cons_of_mem _ hm)
    | delEl x nonce =>
      have hD : delProd H (Op.delEl x nonce :: rest)
          = ((mapToBigInt H x : ℤ) + nonce) * delProd H rest := rfl
      obtain ⟨h0, hpr, hne⟩ := hh x nonce (List.mem_cons_self _ _)
      have hrest := ih fun x' n' hm => hh x' n' (List.mem_cons_of_mem _ hm)
      rw [hD]
      constructor
      · exact mul_pos h0 hrest.1
      · rw [Int.natAbs_mul]
        have habs : ((mapToBigInt H x : ℤ) + nonce).natAbs
            = ((mapToBigInt H x : ℤ) + nonce).toNat := by omega
        rw [habs]
        exact Nat.Coprime.mul ((Nat.coprime_primes hpr hy).mpr hne) hrest.2

theorem absorb_init_eq {α : Type} (a : Accumulator α) (ops : List (Op α)) :
    absorbOps (Update.init a) ops
      = ⟨a.H, a.n, a.z, (addProd a.H ops : ℤ), delProd a.H ops⟩ := by
  obtain ⟨e1, e2, e3, e4, e5⟩ := absorbOps_fields ops (Update.init a)
  have h0 : absorbOps (Update.init a) ops
      = ⟨(absorbOps (Update.init a) ops).H, (absorbOps (Update.init a) ops).n,
         (absorbOps (Update.init a) ops).z, (absorbOps (Update.init a) ops).piA,
         (absorbOps (Update.init a) ops).piD⟩ := rfl
  rw [h0, e1, e2, e3, e4, e5]
  show (⟨a.H, a.n, a.z, 1 * (addProd a.H ops : ℤ), 1 * delProd a.H ops⟩ : Update α) = _
  rw [one_mul, one_mul]

theorem update_eq_of_pos {α : Type} (u : Update α) (wit : Witness α)
    (hD : 0 < u.piD) (hy : 0 < (mapToBigInt u.H wit.x : ℤ) + wit.nonce) :
    u.update wit
      = match modPow wit.w
          ((eGcd u.piD.toNat ((mapToBigInt u.H wit.x : ℤ) + wit.nonce).toNat).1 * u.piA)
          u.n with
        | .error e => .error e
        | .ok m1 =>
          match modPow u.z
              (eGcd u.piD.toNat ((mapToBigInt u.H wit.x : ℤ) + wit.nonce).toNat).2.1 u.n with
          | .error e => .error e
          | .ok m2 => .ok ⟨wit.x, wit.nonce, m1 * m2 % u.n⟩ := by
  have hdef : u.update wit
      = if u.piD ≤ 0 ∨ (mapToBigInt u.H wit.x : ℤ) + wit.nonce ≤ 0 then .error .RangeError
        else
          match modPow wit.w
              ((eGcd u.piD.toNat ((mapToBigInt u.H wit.x : ℤ) + wit.nonce).toNat).1 * u.piA)
              u.n with
          | .error e => .error e
          | .ok m1 =>
            match modPow u.z
                (eGcd u.piD.toNat ((mapToBigInt u.H wit.x : ℤ) + wit.nonce).toNat).2.1 u.n with
            | .error e => .error e
            | .ok m2 => .ok ⟨wit.x, wit.nonce, m1 * m2 % u.n⟩ := rfl
  rw [hdef, if_neg (by push_neg; exact ⟨hD, hy⟩)]

theorem natEq_of_castEq {n a b : ℕ} (ha : a < n) (hb : b < n)
    (h : (a : ZMod n) = (b : ZMod n)) : a = b := by
  haveI : NeZero n := ⟨by omega⟩
  calc a = (ZMod.val (a : ZMod n)) := (ZMod.val_cast_of_lt ha).symm
    _ = (ZMod.val (b : ZMod n)) := by rw [h]
    _ = b := ZMod.val_cast_of_lt hb

/-- C1 (amended): update refresh correctness.  For a trusted accumulator
(n = p * q with secret d = (p - 1) * (q - 1)), a witness Wi issued by add
for an element whose prime y is a genuine prime (no wrap), and a batch of
later operations whose deletions all carry positive primes distinct from
y, an Update opened against the resulting accumulation that absorbs
exactly that batch refreshes Wi via Update.update - computing
w' = (w^(a * piA) mod n) * (z^b mod n) mod n for (a, b) the eGcd
coefficients of (piD, y) - into a witness that verify accepts.  (The
original claim, which allowed absorbing an arbitrary subsequence of the
later operations, is refuted by the counterexample below.) -/
theorem C1_update_refresh {α : Type} (p q : ℕ) (H : α → ℕ) (xi : α) (w : ℕ)
    (ops : List (Op α)) (a1 a2 : Accumulator α) (Wi : Witness α)
    (hp : p.Prime) (hq : q.Prime) (hpq : p ≠ q)
    (hw : Nat.Coprime w (p * q))
    (hyprime : ((mapToPrime H xi).1).Prime)
    (hdels : ∀ x nonce, Op.delEl x nonce ∈ ops →
      0 < (mapToBigInt H x : ℤ) + nonce ∧
      (((mapToBigInt H x : ℤ) + nonce).toNat).Prime ∧
      ((mapToBigInt H x : ℤ) + nonce).toNat ≠ (mapToPrime H xi).1)
    (hadd : Accumulator.add ⟨H, p * q, some ((p - 1) * (q - 1)), w⟩ xi = .ok (a1, Wi))
    (hops : applyOps a1 ops = .ok a2) :
    ∃ W : Witness α,
      (absorbOps (Update.init a2) ops).update Wi = .ok W ∧ a2.verify W = .ok true := by
  have hn1 : 1 < p * q := by
    calc 1 < 2 * 2 := by omega
      _ ≤ p * q := Nat.mul_le_mul hp.two_le hq.two_le
  have hne : (⟨H, p * q, some ((p - 1) * (q - 1)), w⟩ : Accumulator α).n ≠ 0 := by
    show p * q ≠ 0
    omega
  rw [add_eq _ xi hne, Except.ok.injEq, Prod.mk.injEq] at hadd
  obtain ⟨ha1, hWi⟩ := hadd
  subst ha1
  subst hWi
  -- facts about the state right after the add of xi
  have hz1co : Nat.Coprime (w ^ (mapToPrime H xi).1 % (p * q)) (p * q) :=
    coprime_mod (hw.pow_left _)
  have hz1lt : w ^ (mapToPrime H xi).1 % (p * q) < p * q := Nat.mod_lt _ (by omega)
  obtain ⟨ha2H, ha2n, ha2d, ha2co, ha2lt, hpoweq⟩ :=
    applyOps_spec hp hq hpq ops H (w ^ (mapToPrime H xi).1 % (p * q)) a2 hz1co hz1lt
      (fun x nn hm => (hdels x nn hm).1) hops
  -- the aggregated products
  have habs := absorb_init_eq a2 ops
  rw [ha2H, ha2n] at habs
  obtain ⟨hDpos, hDcop⟩ := delProd_pos_coprime H (mapToPrime H xi).1 hyprime ops hdels
  have hy2 : 2 ≤ (mapToPrime H xi).1 := hyprime.two_le
  have hypos : (0 : ℤ) < (mapToBigInt H xi : ℤ) + (mapToPrime H xi).2 := by
    rw [mapToPrime_add_nonce H xi]
    exact_mod_cast hyprime.pos
  rw [habs]
  have hupd := update_eq_of_pos
    (⟨H, p * q, a2.z, (addProd H ops : ℤ), delProd H ops⟩ : Update α)
    ⟨xi, (mapToPrime H xi).2, w⟩ hDpos hypos
  dsimp only at hupd
  rw [mapToPrime_add_nonce H xi, Int.toNat_natCast] at hupd
  -- Bezout coefficients of (piD, y)
  have hDnat : (((delProd H ops).toNat : ℕ) : ℤ) = delProd H ops :=
    Int.toNat_of_nonneg hDpos.le
  have hDabs : (delProd H ops).toNat = (delProd H ops).natAbs := by omega
  have hgcd1 : ((eGcd (delProd H ops).toNat (mapToPrime H xi).1).2.2 : ℕ) = 1 := by
    rw [(eGcd_spec _ _).2, hDabs]
    exact hDcop
  have hbez : (eGcd (delProd H ops).toNat (mapToPrime H xi).1).1
        * ((delProd H ops).toNat : ℤ)
      + (eGcd (delProd H ops).toNat (mapToPrime H xi).1).2.1 * ((mapToPrime H xi).1 : ℤ)
      = 1 := by
    have h0 := (eGcd_spec (delProd H ops).toNat (mapToPrime H xi).1).1
    rw [hgcd1] at h0
    exact_mod_cast h0
  -- evaluate the two modular powers
  obtain ⟨m1, hm1ok, hm1lt, hm1cast⟩ := modPow_coe hn1 w hw
    ((eGcd (delProd H ops).toNat (mapToPrime H xi).1).1 * (addProd H ops : ℤ))
  obtain ⟨m2, hm2ok, hm2lt, hm2cast⟩ := modPow_coe hn1 a2.z ha2co
    (eGcd (delProd H ops).toNat (mapToPrime H xi).1).2.1
  rw [hm1ok, hm2ok] at hupd
  refine ⟨⟨xi, (mapToPrime H xi).2, m1 * m2 % (p * q)⟩, hupd, ?_⟩
  -- the refreshed witness verifies against a2
  have hver := verify_eq a2 ⟨xi, (mapToPrime H xi).2, m1 * m2 % (p * q)⟩
    (by rw [ha2n]; omega)
    (by dsimp only; rw [ha2H, mapToPrime_add_nonce H xi]; exact Int.natCast_nonneg _)
  dsimp only at hver
  rw [ha2H, ha2n, mapToPrime_add_nonce H xi, Int.toNat_natCast] at hver
  rw [hver]
  -- the group computation
  have h2units : (ZMod.unitOfCoprime a2.z ha2co) ^ ((delProd H ops).toNat)
      = (ZMod.unitOfCoprime w hw ^ (mapToPrime H xi).1) ^ addProd H ops := by
    apply Units.ext
    rw [Units.val_pow_eq_pow_val, Units.val_pow_eq_pow_val, Units.val_pow_eq_pow_val]
    rw [ZMod.coe_unitOfCoprime, ZMod.coe_unitOfCoprime, hDabs, hpoweq]
    rw [ZMod.natCast_mod, Nat.cast_pow]
  have hcore := refresh_group (ZMod.unitOfCoprime w hw)
    (ZMod.unitOfCoprime w hw ^ (mapToPrime H xi).1)
    (ZMod.unitOfCoprime a2.z ha2co)
    (mapToPrime H xi).1 (addProd H ops) ((delProd H ops).toNat)
    (eGcd (delProd H ops).toNat (mapToPrime H xi).1).1
    (eGcd (delProd H ops).toNat (mapToPrime H xi).1).2.1
    rfl h2units hbez
  -- transfer to naturals
  have hWlt : m1 * m2 % (p * q) < p * q := Nat.mod_lt _ (by omega)
  have hcast : (((m1 * m2 % (p * q)) ^ (mapToPrime H xi).1 % (p * q) : ℕ) : ZMod (p * q))
      = ((a2.z : ℕ) : ZMod (p * q)) := by
    rw [ZMod.natCast_mod, Nat.cast_pow, ZMod.natCast_mod, Nat.cast_mul]
    rw [hm1cast, hm2cast]
    rw [← Units.val_mul, ← Units.val_pow_eq_pow_val, hcore, ZMod.coe_unitOfCoprime]
  have hfinal : (m1 * m2 % (p * q)) ^ (mapToPrime H xi).1 % (p * q) = a2.z :=
    natEq_of_castEq (Nat.mod_lt _ (by omega)) ha2lt hcast
  rw [hfinal]
  simp

theorem bitLenAux_zero (fuel : ℕ) : bitLenAux fuel 0 = 0 := by
  cases fuel <;> rfl

theorem bitLenAux_spec : ∀ fuel n : ℕ, n ≤ fuel →
    n < 2 ^ bitLenAux fuel n ∧ (1 ≤ n → 2 ^ bitLenAux fuel n ≤ 2 * n) := by
  intro fuel
  induction fuel with
  | zero =>
    intro n h
    have h0 : n = 0 := by omega
    subst h0
    rw [bitLenAux_zero]
    exact ⟨by norm_num, by omega⟩
  | succ fuel ih =>
    intro n h
    by_cases h0 : n = 0
    · subst h0
      rw [bitLenAux_zero]
      exact ⟨by norm_num, by omega⟩
    · have hstep : bitLenAux (fuel + 1) n = bitLenAux fuel (n / 2) + 1 := by
        show (if n = 0 then 0 else bitLenAux fuel (n / 2) + 1) = _
        rw [if_neg h0]
      have hrec := ih (n / 2) (by omega)
      rw [hstep]
      constructor
      · have h1 := hrec.1
        rw [pow_succ]
        omega
      · intro h1
        rw [pow_succ]
        by_cases h2 : n / 2 = 0
        · rw [h2, bitLenAux_zero] at hrec ⊢
          have : (2 : ℕ) ^ 0 = 1 := by norm_num
          rw [this]
          omega
        · have h3 := hrec.2 (by omega)
          omega

theorem bitLen_spec (n : ℕ) : n < 2 ^ bitLen n ∧ (1 ≤ n → 2 ^ bitLen n ≤ 2 * n) :=
  bitLenAux_spec n n le_rfl

theorem bitLen_le_of_lt_pow {m k : ℕ} (h : m < 2 ^ k) : bitLen m ≤ k := by
  by_contra hc
  push_neg at hc
  by_cases h0 : m = 0
  · subst h0
    have : bitLen 0 = 0 := bitLenAux_zero 0
    omega
  · have h1 := (bitLen_spec m).2 (by omega)
    have h2 : 2 ^ (k + 1) ≤ 2 ^ bitLen m := Nat.pow_le_pow_right (by omega) (by omega)
    have h3 : (2 : ℕ) ^ (k + 1) = 2 * 2 ^ k := by rw [pow_succ]; ring
    omega

theorem bitLen_mono {m n : ℕ} (h : m ≤ n) : bitLen m ≤ bitLen n :=
  bitLen_le_of_lt_pow (lt_of_le_of_lt h (bitLen_spec n).1)

theorem wheelLoop_ge (bits : ℕ) : ∀ (fuel pp i : ℕ), pp ≤ wheelLoop bits pp i fuel := by
  intro fuel
  induction fuel with
  | zero =>
    intro pp i
    exact le_refl pp
  | succ fuel ih =>
    intro pp i
    have hdef : wheelLoop bits pp i (fuel + 1)
        = if bits < bitLen pp then
            if isPrime pp then pp
            else wheelLoop bits (pp + (delta.getD (i % 8) 0)) (i + 1) fuel
          else pp := rfl
    rw [hdef]
    by_cases h1 : bits < bitLen pp
    · rw [if_pos h1]
      by_cases h2 : isPrime pp
      · rw [if_pos h2]
      · rw [if_neg h2]
        exact le_trans (Nat.le_add_right pp _) (ih _ _)
    · rw [if_neg h1]

theorem randomPrime_cons (bits s : ℕ) (rest : List ℕ) :
    randomPrime bits (s :: rest)
      = if bits < bitLen (s + (31 - s % 30)) then randomPrime bits rest
        else if isPrime (s + (31 - s % 30)) then some (s + (31 - s % 30))
        else randomPrime bits rest := by
  have hdef : randomPrime bits (s :: rest)
      = (if bits < bitLen (if bits < bitLen (s + (31 - s % 30))
            then wheelLoop bits (s + (31 - s % 30)) 0 (s + (31 - s % 30))
            else s + (31 - s % 30))
         then randomPrime bits rest
         else if isPrime (if bits < bitLen (s + (31 - s % 30))
            then wheelLoop bits (s + (31 - s % 30)) 0 (s + (31 - s % 30))
            else s + (31 - s % 30))
         then some (if bits < bitLen (s + (31 - s % 30))
            then wheelLoop bits (s + (31 - s % 30)) 0 (s + (31 - s % 30))
            else s + (31 - s % 30))
         else randomPrime bits rest) := rfl
  rw [hdef]
  by_cases hb : bits < bitLen (s + (31 - s % 30))
  · rw [if_pos hb, if_pos hb]
    have hgt : bits < bitLen (wheelLoop bits (s + (31 - s % 30)) 0 (s + (31 - s % 30))) :=
      lt_of_lt_of_le hb (bitLen_mono (wheelLoop_ge bits _ _ _))
    rw [if_pos hgt]
  · rw [if_neg hb, if_neg hb]

/-- C1 counterexample: absorbing a strict subsequence (here: nothing) of
the operations performed after Wi was issued leaves a refreshed witness
that verify rejects.  Two elements are added; an Update opened against
the final accumulation absorbs the empty subsequence of the later
addition; updating the first witness yields a witness failing verify. -/
theorem C1_counterexample :
    Accumulator.add (⟨fun v : ℕ => v, 35, some 24, 2⟩ : Accumulator ℕ) 1
      = .ok (⟨fun v : ℕ => v, 35, some 24, 8⟩, ⟨1, 2, 2⟩) ∧
    Accumulator.add (⟨fun v : ℕ => v, 35, some 24, 8⟩ : Accumulator ℕ) 5
      = .ok (⟨fun v : ℕ => v, 35, some 24, 22⟩, ⟨5, 2, 8⟩) ∧
    Update.update (Update.init (⟨fun v : ℕ => v, 35, some 24, 22⟩ : Accumulator ℕ)) ⟨1, 2, 2⟩
      = .ok ⟨1, 2, 2⟩ ∧
    Accumulator.verify (⟨fun v : ℕ => v, 35, some 24, 22⟩ : Accumulator ℕ) ⟨1, 2, 2⟩
      = .ok false :=
  ⟨rfl, rfl, rfl, rfl⟩

/-- C1 witness: the refresh theorem at p = 11, q = 3, digest the identity,
element 5 (prime 7), witness value 2, with a later addition of 3 (prime 5)
and a deletion with prime 11. -/
theorem C1_witness :
    ∃ W : Witness ℕ,
      (absorbOps (Update.init ⟨fun v : ℕ => v, 33, some 20, 32⟩)
        [Op.addEl 3, Op.delEl 11 0]).update ⟨5, 2, 2⟩ = .ok W ∧
      Accumulator.verify ⟨fun v : ℕ => v, 33, some 20, 32⟩ W = .ok true := by
  have h := C1_update_refresh 11 3 (fun v : ℕ => v) 5 2 [Op.addEl 3, Op.delEl 11 0]
    ⟨fun v : ℕ => v, 33, some 20, 29⟩ ⟨fun v : ℕ => v, 33, some 20, 32⟩ ⟨5, 2, 2⟩
    (by norm_num) (by norm_num) (by omega) (by decide) (by decide)
    (by
      intro x nonce hm
      simp only [List.mem_cons, List.not_mem_nil, or_false] at hm
      rcases hm with h | h
      · exact Op.noConfusion h
      · injection h with h1 h2
        subst h1
        subst h2
        refine ⟨by decide, by decide, by decide⟩)
    rfl rfl
  exact h

/-- C2: membership round trip.  For every accumulator with a nonzero
modulus (trusted or public) and every element x, the witness returned by
add immediately verifies: its value w raised to the recomputed prime
digest + nonce equals the post-add accumulation modulo n. -/
theorem C2_add_verify {α : Type} (a : Accumulator α) (x : α) (hn : a.n ≠ 0) :
    ∃ (a' : Accumulator α) (wit : Witness α),
      a.add x = .ok (a', wit) ∧ a'.verify wit = .ok true := by
  refine ⟨{a with z := a.z ^ (mapToPrime a.H x).1 % a.n}, ⟨x, (mapToPrime a.H x).2, a.z⟩,
    add_eq a x hn, ?_⟩
  have hver := verify_eq ({a with z := a.z ^ (mapToPrime a.H x).1 % a.n})
    ⟨x, (mapToPrime a.H x).2, a.z⟩ hn
    (by dsimp only; rw [mapToPrime_add_nonce a.H x]; exact Int.natCast_nonneg _)
  dsimp only at hver
  rw [mapToPrime_add_nonce a.H x, Int.toNat_natCast] at hver
  rw [hver]
  simp

/-- C2 witness: a concrete public accumulator and element. -/
theorem C2_witness :
    ∃ (a' : Accumulator ℕ) (wit : Witness ℕ),
      Accumulator.add (⟨fun _ : ℕ => 5, 33, none, 10⟩ : Accumulator ℕ) 0 = .ok (a', wit) ∧
      a'.verify wit = .ok true :=
  C2_add_verify (⟨fun _ : ℕ => 5, 33, none, 10⟩ : Accumulator ℕ) 0 (by norm_num)

/-- C3 counterexample: del performs no witness validation.  A witness for
which verify returns false is accepted by del, which succeeds and mutates
the accumulation. -/
theorem C3_counterexample :
    Accumulator.verify (⟨fun _ : ℕ => 5, 33, some 20, 65537⟩ : Accumulator ℕ) ⟨0, 2, 1⟩
      = .ok false ∧
    Accumulator.del (⟨fun _ : ℕ => 5, 33, some 20, 65537⟩ : Accumulator ℕ) ⟨0, 2, 1⟩
      = .ok (⟨fun _ : ℕ => 5, 33, some 20, 32⟩, 32) ∧ (32 : ℕ) ≠ 65537 :=
  ⟨rfl, rfl, by norm_num⟩

/-- C3 (amended): del does not validate the witness.  On a trusted
accumulator with secret d > 1, whenever the recomputed prime admits an
inverse mod d (so that modInv does not throw), del succeeds - whatever
verify would say - and its result does not depend on the witness value
w at all. -/
theorem C3_no_validation {α : Type} (a : Accumulator α) (wit : Witness α) (d0 : ℕ)
    (hd : a.d = some d0)
    (hg : Nat.Coprime (toZn ((mapToBigInt a.H wit.x : ℤ) + wit.nonce) d0) d0)
    (hd0 : 1 < d0) (hn : a.n ≠ 0) :
    ∃ r, a.del wit = .ok r ∧ ∀ w' : ℕ, a.del ⟨wit.x, wit.nonce, w'⟩ = .ok r := by
  obtain ⟨aH, an, ad, az⟩ := a
  dsimp only at hd hg hn ⊢
  subst hd
  obtain ⟨i, hiok, _, _⟩ := modInv_ok _ hd0 hg
  have hmp := modPow_nonneg_eq az (i : ℤ) hn (Int.natCast_nonneg _)
  rw [Int.toNat_natCast] at hmp
  refine ⟨(⟨aH, an, some d0, az ^ i % an⟩, az ^ i % an), ?_, ?_⟩
  · rw [del_some_eq, hiok]
    dsimp only
    rw [hmp]
  · intro w'
    rw [del_some_eq]
    dsimp only
    rw [hiok]
    dsimp only
    rw [hmp]

/-- C3 witness: the invalid-witness scenario of the counterexample also
instantiates the amended theorem. -/
theorem C3_witness :
    ∃ r, Accumulator.del (⟨fun _ : ℕ => 5, 33, some 20, 65537⟩ : Accumulator ℕ) ⟨0, 2, 1⟩
        = .ok r ∧
      ∀ w' : ℕ, Accumulator.del (⟨fun _ : ℕ => 5, 33, some 20, 65537⟩ : Accumulator ℕ)
        ⟨0, 2, w'⟩ = .ok r :=
  C3_no_validation (⟨fun _ : ℕ => 5, 33, some 20, 65537⟩ : Accumulator ℕ) ⟨0, 2, 1⟩ 20
    rfl (by decide) (by norm_num) (by norm_num)

/-- C4 counterexample: add succeeds on a public-modulus accumulator
(no secret d), returning a witness and updating z, instead of failing
with SecretRequired. -/
theorem C4_counterexample :
    (⟨fun _ : ℕ => 5, 35, none, 3⟩ : Accumulator ℕ).d = none ∧
    Accumulator.add (⟨fun _ : ℕ => 5, 35, none, 3⟩ : Accumulator ℕ) 0
      = .ok (⟨fun _ : ℕ => 5, 35, none, 17⟩, ⟨0, 2, 3⟩) :=
  ⟨rfl, rfl⟩

/-- C4 (amended): add never consults the secret.  On a public-modulus
accumulator (d absent, n nonzero) add succeeds for every element,
returning the pre-add accumulation as witness value and raising z to the
element's prime mod n. -/
theorem C4_add_public {α : Type} (a : Accumulator α) (x : α) (_hd : a.d = none)
    (hn : a.n ≠ 0) :
    a.add x = .ok ({a with z := a.z ^ (mapToPrime a.H x).1 % a.n},
      ⟨x, (mapToPrime a.H x).2, a.z⟩) :=
  add_eq a x hn

/-- C4 witness: a concrete public accumulator. -/
theorem C4_witness :
    Accumulator.add (⟨fun _ : ℕ => 5, 35, none, 3⟩ : Accumulator ℕ) 1
      = .ok (⟨fun _ : ℕ => 5, 35, none, 17⟩, ⟨1, 2, 3⟩) :=
  (C4_add_public (⟨fun _ : ℕ => 5, 35, none, 3⟩ : Accumulator ℕ) 1 rfl (by norm_num)).trans
    rfl

/-- C5: public-verifier mode.  On an accumulator without the secret d,
del and prove fail with SecretRequired for every input, while verify
never consults d (its result is the same for any value of d) and returns
a Boolean normally whenever the recomputed exponent is non-negative and
the modulus is nonzero. -/
theorem C5_public_mode {α : Type} (a : Accumulator α) (hd : a.d = none) :
    (∀ wit : Witness α, a.del wit = .error .SecretRequired) ∧
    (∀ x : α, a.prove x = .error .SecretRequired) ∧
    (∀ (wit : Witness α) (d' : Option ℕ),
      Accumulator.verify ⟨a.H, a.n, d', a.z⟩ wit = a.verify wit) ∧
    (∀ wit : Witness α, a.n ≠ 0 → 0 ≤ (mapToBigInt a.H wit.x : ℤ) + wit.nonce →
      ∃ b, a.verify wit = .ok b) := by
  obtain ⟨aH, an, ad, az⟩ := a
  dsimp only at hd ⊢
  subst hd
  refine ⟨fun wit => rfl, fun x => rfl, fun wit d' => rfl, fun wit hn he => ?_⟩
  exact ⟨_, verify_eq (⟨aH, an, none, az⟩ : Accumulator α) wit hn he⟩

/-- C5 witness: a concrete public accumulator, witness and element. -/
theorem C5_witness :
    Accumulator.del (⟨fun _ : ℕ => 5, 35, none, 3⟩ : Accumulator ℕ) ⟨0, 2, 3⟩
      = .error .SecretRequired ∧
    Accumulator.prove (⟨fun _ : ℕ => 5, 35, none, 3⟩ : Accumulator ℕ) 0
      = .error .SecretRequired ∧
    ∃ b, Accumulator.verify (⟨fun _ : ℕ => 5, 35, none, 3⟩ : Accumulator ℕ) ⟨0, 2, 3⟩
      = .ok b := by
  have h := C5_public_mode (⟨fun _ : ℕ => 5, 35, none, 3⟩ : Accumulator ℕ) rfl
  exact ⟨h.1 _, h.2.1 _, h.2.2.2 _ (by norm_num) (by decide)⟩

set_option maxRecDepth 40000 in
/-- C8 counterexample: randomPrime does not follow the claimed wheel
rule.  On bit size 9 with samples 280 then 260, the aligned candidate 301
is composite: the claimed search wheel-steps to 307 and returns it, but
the code resamples (the wheel loop only runs above the bit bound) and
returns 271 from the second sample. -/
theorem C8_counterexample :
    randomPrime 9 [280, 260] = some 271 ∧ randomPrimeClaim 9 [280, 260] = some 307 ∧
    (271 : ℕ) ≠ 307 :=
  ⟨rfl, rfl, by norm_num⟩

/-- C8 (amended): one outer round of randomPrime aligns the sample s to
s + (31 - s mod 30), a value congruent to 1 mod 30; if the aligned value
exceeds the bit bound the round resamples (the wheel loop, run only in
that case, cannot bring it back in range since it only increases the
candidate); otherwise the aligned candidate itself is subjected to the
primality test and returned on success, with no wheel stepping. -/
theorem C8_search_rule (bits s : ℕ) (rest : List ℕ) :
    randomPrime bits (s :: rest)
      = (if bits < bitLen (s + (31 - s % 30)) then randomPrime bits rest
         else if isPrime (s + (31 - s % 30)) then some (s + (31 - s % 30))
         else randomPrime bits rest) ∧
    (s + (31 - s % 30)) % 30 = 1 :=
  ⟨randomPrime_cons bits s rest, by omega⟩

set_option maxRecDepth 40000 in
/-- C8 witness: the rule at bit size 9, sample 280 (aligned to the
composite 301): the round resamples. -/
theorem C8_witness :
    randomPrime 9 [280, 5] = randomPrime 9 [5] ∧ (280 + (31 - 280 % 30)) % 30 = 1 := by
  have h := C8_search_rule 9 280 [5]
  refine ⟨?_, h.2⟩
  rw [h.1, if_neg (by decide), if_neg (by decide)]

/-- C9 counterexample: undoAdd against a prime not previously absorbed
does not fail with InvalidDivision; it silently truncates.  With piA = 3
and a witness whose prime is 2, undoAdd succeeds and stores piA = 1,
although 2 does not divide 3. -/
theorem C9_counterexample :
    Update.undoAdd (⟨fun v : ℕ => v, 35, 1, 3, 1⟩ : Update ℕ) ⟨2, 0, 0⟩
      = .ok ⟨fun v : ℕ => v, 35, 1, 1, 1⟩ ∧ ¬ ((2 : ℤ) ∣ 3) :=
  ⟨rfl, by decide⟩

/-- C9 (amended): undoAdd and undoDel never check divisibility.  For a
nonzero recomputed prime y they succeed and replace piA (resp. piD) by
the toward-zero quotient piA / y (resp. piD / y); only y = 0 fails, with
the division-by-zero RangeError. -/
theorem C9_undo_truncates {α : Type} (u : Update α) (wit : Witness α) :
    (((mapToBigInt u.H wit.x : ℤ) + wit.nonce ≠ 0) →
      u.undoAdd wit
          = .ok {u with piA := u.piA.tdiv ((mapToBigInt u.H wit.x : ℤ) + wit.nonce)} ∧
      u.undoDel wit
          = .ok {u with piD := u.piD.tdiv ((mapToBigInt u.H wit.x : ℤ) + wit.nonce)}) ∧
    (((mapToBigInt u.H wit.x : ℤ) + wit.nonce = 0) →
      u.undoAdd wit = .error .RangeError ∧ u.undoDel wit = .error .RangeError) := by
  have hdefA : u.undoAdd wit
      = if (mapToBigInt u.H wit.x : ℤ) + wit.nonce = 0 then .error .RangeError
        else .ok {u with piA := u.piA.tdiv ((mapToBigInt u.H wit.x : ℤ) + wit.nonce)} := rfl
  have hdefD : u.undoDel wit
      = if (mapToBigInt u.H wit.x : ℤ) + wit.nonce = 0 then .error .RangeError
        else .ok {u with piD := u.piD.tdiv ((mapToBigInt u.H wit.x : ℤ) + wit.nonce)} := rfl
  constructor
  · intro hy
    rw [hdefA, hdefD, if_neg hy, if_neg hy]
    exact ⟨rfl, rfl⟩
  · intro hy
    rw [hdefA, hdefD, if_pos hy, if_pos hy]
    exact ⟨rfl, rfl⟩

/-- C9 witness: piA = 5 and piD = 7 divided by the prime 3 truncate to 1
and 2. -/
theorem C9_witness :
    Update.undoAdd (⟨fun v : ℕ => v, 35, 1, 5, 7⟩ : Update ℕ) ⟨3, 0, 0⟩
      = .ok ⟨fun v : ℕ => v, 35, 1, 1, 7⟩ ∧
    Update.undoDel (⟨fun v : ℕ => v, 35, 1, 5, 7⟩ : Update ℕ) ⟨3, 0, 0⟩
      = .ok ⟨fun v : ℕ => v, 35, 1, 5, 2⟩ := by
  have h := (C9_undo_truncates (⟨fun v : ℕ => v, 35, 1, 5, 7⟩ : Update ℕ) ⟨3, 0, 0⟩).1
    (by decide)
  exact ⟨h.1.trans (by rfl), h.2.trans (by rfl)⟩

/-- C10 counterexample: prove does not return an accepting witness for
every input on every trusted accumulator with invertible z: when the
element's prime shares a factor with d = (p - 1) * (q - 1) (here prime 5
dividing d = 20), the modular inverse does not exist and prove fails. -/
theorem C10_counterexample :
    Nat.Coprime 32 33 ∧
    (⟨fun _ : ℕ => 3, 33, some 20, 32⟩ : Accumulator ℕ).d = some 20 ∧
    Accumulator.prove (⟨fun _ : ℕ => 3, 33, some 20, 32⟩ : Accumulator ℕ) 0
      = .error .RangeError :=
  ⟨by decide, rfl, rfl⟩

/-- C10 (amended): on a trusted accumulator whose accumulation z is
invertible mod n = p * q and reduced, prove(x) returns a witness that
verify accepts for every input x whose prime is coprime to d - with no
assumption whatsoever that x was ever added.  verify composed with prove
therefore does not witness membership. -/
theorem C10_prove_forges {α : Type} (p q : ℕ) (H : α → ℕ) (z : ℕ) (x : α)
    (hp : p.Prime) (hq : q.Prime) (hpq : p ≠ q)
    (hz : Nat.Coprime z (p * q)) (hzlt : z < p * q)
    (hy : Nat.Coprime ((mapToPrime H x).1) ((p - 1) * (q - 1))) :
    ∃ wit : Witness α,
      Accumulator.prove ⟨H, p * q, some ((p - 1) * (q - 1)), z⟩ x = .ok wit ∧
      Accumulator.verify ⟨H, p * q, some ((p - 1) * (q - 1)), z⟩ wit = .ok true := by
  have hn1 : 1 < p * q := by
    calc 1 < 2 * 2 := by omega
      _ ≤ p * q := Nat.mul_le_mul hp.two_le hq.two_le
  have hd0 : 1 < (p - 1) * (q - 1) := one_lt_totient_pq hp hq hpq
  have htoZn : Nat.Coprime (toZn ((mapToPrime H x).1 : ℤ) ((p - 1) * (q - 1)))
      ((p - 1) * (q - 1)) := by
    have he : toZn ((mapToPrime H x).1 : ℤ) ((p - 1) * (q - 1))
        = (mapToPrime H x).1 % ((p - 1) * (q - 1)) := by
      unfold toZn
      rw [← Int.natCast_mod, Int.toNat_natCast]
    rw [he]
    exact coprime_mod hy
  obtain ⟨i, hiok, _, hicong⟩ := modInv_ok ((mapToPrime H x).1 : ℤ) hd0 htoZn
  have hprove_eq : Accumulator.prove (⟨H, p * q, some ((p - 1) * (q - 1)), z⟩ : Accumulator α) x
      = match modInv ((mapToPrime H x).1 : ℤ) ((p - 1) * (q - 1)) with
        | .error e => .error e
        | .ok i =>
          match modPow z (i : ℤ) (p * q) with
          | .error e => .error e
          | .ok w => .ok ⟨x, (mapToPrime H x).2, w⟩ := rfl
  have hmp := modPow_nonneg_eq z (i : ℤ) (show p * q ≠ 0 by omega) (Int.natCast_nonneg _)
  rw [Int.toNat_natCast] at hmp
  refine ⟨⟨x, (mapToPrime H x).2, z ^ i % (p * q)⟩, ?_, ?_⟩
  · rw [hprove_eq, hiok]
    dsimp only
    rw [hmp]
  · have hver := verify_eq (⟨H, p * q, some ((p - 1) * (q - 1)), z⟩ : Accumulator α)
      ⟨x, (mapToPrime H x).2, z ^ i % (p * q)⟩ (show p * q ≠ 0 by omega)
      (by dsimp only; rw [mapToPrime_add_nonce H x]; exact Int.natCast_nonneg _)
    dsimp only at hver
    rw [mapToPrime_add_nonce H x, Int.toNat_natCast] at hver
    rw [hver]
    have hy_i : i * (mapToPrime H x).1 ≡ 1 [MOD (p - 1) * (q - 1)] := by
      apply natModEq_of_intModEq
      have hc : ((i * (mapToPrime H x).1 : ℕ) : ℤ) = ((mapToPrime H x).1 : ℤ) * i := by
        push_cast
        ring
      rw [hc]
      exact_mod_cast hicong
    have heuler := euler_pq hp hq hpq z hz
    have hroot : ((z ^ i % (p * q) : ℕ) : ZMod (p * q)) ^ (mapToPrime H x).1
        = ((z : ℕ) : ZMod (p * q)) := by
      rw [ZMod.natCast_mod, Nat.cast_pow, ← pow_mul]
      have hpp := pow_eq_pow_of_modEq ((z : ℕ) : ZMod (p * q)) heuler hy_i
      rw [hpp, pow_one]
    have hfin : (z ^ i % (p * q)) ^ (mapToPrime H x).1 % (p * q) = z := by
      apply natEq_of_castEq (Nat.mod_lt _ (by omega)) hzlt
      rw [ZMod.natCast_mod, Nat.cast_pow, hroot]
    rw [hfin]
    simp

/-- C10 witness: a trusted accumulator over 33 with z = 32 and an element
never added, whose prove-witness verifies. -/
theorem C10_witness :
    Nat.Coprime 32 33 ∧
    ∃ wit : Witness ℕ,
      Accumulator.prove (⟨fun _ : ℕ => 5, 33, some 20, 32⟩ : Accumulator ℕ) 0 = .ok wit ∧
      Accumulator.verify (⟨fun _ : ℕ => 5, 33, some 20, 32⟩ : Accumulator ℕ) wit
        = .ok true := by
  refine ⟨by decide, ?_⟩
  exact C10_prove_forges 11 3 (fun _ : ℕ => 5) 32 0 (by norm_num) (by norm_num) (by omega)
    (by decide) (by decide) (by decide)

end RsaAcc
